import Mathlib

/-!
Verification of the dependency-extraction pipeline of `src/main.rs`
(the `dump-dependency` tool): a shallow embedding of its data model and
operations, followed by theorems about the spec's claims.

Filesystem access, subprocess execution and shell tokenization are modelled
as explicit parameters (`Fs`, `Env`); machine behaviour that panics
(`Vec::remove`/`Vec::insert` out of bounds, `assert_ne!`) is modelled as
`Option` with `none` for the panic. Logging is a side effect with no bearing
on the returned data, so warnings/errors are not carried except where a claim
is about which entries get warned (`entryDedup` returns the skipped entries).
-/

/-! ## Characters and line splitting -/

/-- Whitespace for the regex class `\s` (the ASCII part; every input in this
development uses only the plain space). -/
def isSpaceChar (c : Char) : Bool :=
  c == ' ' || c == '\t' || c == '\n' || c == '\r' || c == Char.ofNat 11 || c == Char.ofNat 12

/-- Splits a character list at a separator character, mirroring how
`Path::components` decomposes a path at `/` and how stdout is cut at
newlines. Returns at least one (possibly empty) group. -/
def splitSep (sep : Char) : List Char → List (List Char)
  | [] => [[]]
  | c :: rest =>
    if c = sep then [] :: splitSep sep rest
    else
      match splitSep sep rest with
      | [] => [[c]]
      | g :: gs => (c :: g) :: gs

/-- Joins groups back with the separator; the left inverse of `splitSep`. -/
def joinSep (sep : Char) : List (List Char) → List Char
  | [] => []
  | [g] => g
  | g :: g2 :: gs => g ++ sep :: joinSep sep (g2 :: gs)

/-- Drops a trailing empty group, as `BufRead::lines` does not yield a final
empty line after a terminating newline. -/
def dropFinalEmpty : List (List Char) → List (List Char)
  | [] => []
  | [g] => if g.isEmpty then [] else [g]
  | g :: g2 :: gs => g :: dropFinalEmpty (g2 :: gs)

/-- Strips one trailing carriage return, as `BufRead::lines` does. -/
def stripCR (g : List Char) : List Char :=
  if g.getLast? = some '\r' then g.dropLast else g

/-- Models `BufRead::lines` over the captured stdout: split at newlines, drop
the empty tail after a final newline, strip a trailing CR from each line. -/
def rustLines (s : String) : List String :=
  if s.data.isEmpty then []
  else (dropFinalEmpty (splitSep '\n' s.data)).map (fun g => String.mk (stripCR g))

/-! ## The dependency-line regex `\s*(.*) \\`

`parse_dependency` (main.rs:92-109) matches each line against the regex
`\s*(.*) \\` and takes capture group 1. The regex engine uses leftmost-first
(Perl-style) semantics with greedy repetition: `\s*` first consumes the
maximal whitespace prefix, `(.*)` then stretches to the last position
followed by a space-backslash marker, and on failure `\s*` gives characters
back one at a time. Since `\s*` and `(.*)` may both be empty, a match starting
at position 0 exists whenever the line contains the two-character marker at
all, so no later starting position is ever used. -/

/-- Whether position `i` of `s` starts the literal ` \` marker. -/
def markerAt (s : List Char) (i : Nat) : Bool :=
  s[i]? == some ' ' && s[i + 1]? == some '\\'

/-- Greatest position in `[floor, floor+k]` that starts the marker, scanning
downward: the position the greedy `(.*)` stops at. -/
def tryDown (s : List Char) (floor : Nat) : Nat → Option Nat
  | 0 => if markerAt s floor then some floor else none
  | k + 1 =>
    if markerAt s (floor + k + 1) then some (floor + k + 1) else tryDown s floor k

/-- Greatest marker position at index `start` or later. -/
def lastMarkerFrom (s : List Char) (start : Nat) : Option Nat :=
  tryDown s start (s.length - start)

/-- Length of the maximal leading whitespace run (what the greedy `\s*`
consumes first). -/
def wsPrefixCount : List Char → Nat
  | [] => 0
  | c :: rest => if isSpaceChar c then wsPrefixCount rest + 1 else 0

/-- Backtracking of the greedy `\s*`: with `w` whitespace characters consumed,
capture group 1 is `s[w..q]` for the greatest marker position `q ≥ w`;
otherwise retry with `w - 1`. -/
def goWs (s : List Char) : Nat → Option (List Char)
  | 0 =>
    match lastMarkerFrom s 0 with
    | some q => some (s.take q)
    | none => none
  | w + 1 =>
    match lastMarkerFrom s (w + 1) with
    | some q => some ((s.drop (w + 1)).take (q - (w + 1)))
    | none => goWs s w

/-- Capture group 1 of the regex `\s*(.*) \\` on a line, or `none` when the
line does not match. -/
def reCapture (s : List Char) : Option (List Char) :=
  goWs s (wsPrefixCount s)

/-- String form of `reCapture`. -/
def reCaptureStr (s : String) : Option String :=
  (reCapture s.data).map (fun g => String.mk g)

/-! ## Error type and filesystem model -/

/-- The tool's error enum (main.rs:57-64). -/
inductive Error where
  | IoError : Error
  | ExitStatusError : Error
  | ShellWordsParseError : Error
  | RegexError : Error
  | CommandFormatError : Error
  deriving DecidableEq

/-- The filesystem as seen through `Path::exists` and `Path::canonicalize`;
`canonicalize = none` models an `io::Error` from the call. -/
structure Fs where
  pathExists : String → Bool
  canonicalize : String → Option String

/-! ## parse_dependency (main.rs:92-109) -/

/-- Models `parse_dependency`: for each line, the regex capture (if the line
matches) is a candidate path; an existing candidate is canonicalized (a
canonicalization failure propagates as `IoError` via `?`) and appended in
line order; non-existing candidates and unmatched lines contribute nothing.
The compiled constant pattern is valid, so `Regex::new` cannot fail; the
"No dependency found" warning is a log side effect. -/
def parse_dependency (fs : Fs) : List String → Except Error (List String)
  | [] => Except.ok []
  | line :: rest =>
    match reCaptureStr line with
    | some path =>
      if fs.pathExists path then
        match fs.canonicalize path with
        | some c => (parse_dependency fs rest).map (fun r => c :: r)
        | none => Except.error Error.IoError
      else parse_dependency fs rest
    | none => parse_dependency fs rest

/-! ## The invocation rewrite (main.rs:111-139) -/

/-- Models `Iterator::position`: index of the first element satisfying `p`. -/
def position (p : α → Bool) : List α → Option Nat
  | [] => none
  | a :: l => if p a then some 0 else (position p l).map (fun n => n + 1)

/-- Models `Vec::remove(i)`: `none` is the out-of-bounds panic. -/
def vecRemove : List α → Nat → Option (List α)
  | [], _ => none
  | _ :: t, 0 => some t
  | h :: t, n + 1 => (vecRemove t n).map (fun r => h :: r)

/-- Models `Vec::insert(i, x)`: `none` is the `i > len` panic. -/
def vecInsert : List α → Nat → α → Option (List α)
  | l, 0, x => some (x :: l)
  | [], _ + 1, _ => none
  | h :: t, n + 1, x => (vecInsert t n x).map (fun r => h :: r)

/-- The argument-vector rewrite inside `dump_dependency` (main.rs:119-139):
assert the vector non-empty, find the first `-o`, remove it and its
successor via `Vec::remove`, and insert `-M` at index 1. `none` is any of
the three possible panics. -/
def rewriteArgs (args : List String) : Option (List String) :=
  if args.length = 0 then none
  else
    match position (fun v => v == "-o") args with
    | some o =>
      match vecRemove args (o + 1) with
      | none => none
      | some a =>
        match vecRemove a o with
        | none => none
        | some b => vecInsert b 1 "-M"
    | none => vecInsert args 1 "-M"

/-! ## Compilation entries and dump_dependency -/

/-- One entry of the compilation database (main.rs:46-55). -/
structure CompileCommand where
  directory : String
  command : Option String
  arguments : Option (List String)
  file : String
  deriving DecidableEq

/-- The head of `dump_dependency` (main.rs:112-118): prefer the structured
`arguments`; otherwise shell-split `command` (a split failure is
`ShellWordsParseError`); with neither, fail with `CommandFormatError`. -/
def buildArgs (shellSplit : String → Option (List String)) (c : CompileCommand) :
    Except Error (List String) :=
  match c.arguments with
  | some arguments => Except.ok arguments
  | none =>
    match c.command with
    | some cmd =>
      match shellSplit cmd with
      | some a => Except.ok a
      | none => Except.error Error.ShellWordsParseError
    | none => Except.error Error.CommandFormatError

/-- Captured output of one subprocess run. -/
structure ProcOut where
  stdout : String
  stderr : String
  exitOk : Bool

/-- The ambient world of one run: shell tokenization (`shell_words::split`),
subprocess execution (`Command::output`, keyed by argument vector and working
directory, `none` for a spawn `io::Error`), and the filesystem. -/
structure Env where
  shellSplit : String → Option (List String)
  run : List String → String → Option ProcOut
  fs : Fs

/-- Models `dump_dependency` (main.rs:111-156). The outer `none` is a panic:
the `assert_ne!` on an empty argument vector, an out-of-bounds
`Vec::remove`/`Vec::insert` in the rewrite, or the `assert_ne!` on empty
stdout after a successful exit. `some (Except.error e)` is a returned
per-entry error. Forwarding a non-empty stderr to stdout is a side effect
modelled as infallible. -/
def dump_dependency (env : Env) (command : CompileCommand) :
    Option (Except Error (List String)) :=
  match buildArgs env.shellSplit command with
  | Except.error e => some (Except.error e)
  | Except.ok args =>
    match rewriteArgs args with
    | none => none
    | some args2 =>
      match env.run args2 command.directory with
      | none => some (Except.error Error.IoError)
      | some out =>
        if out.exitOk then
          if out.stdout.data.isEmpty then none
          else some (parse_dependency env.fs (rustLines out.stdout))
        else some (Except.error Error.ExitStatusError)

/-! ## Entry deduplication (main.rs:170-186) -/

/-- The deduplication loop with its `done_list`: returns the kept entries in
order and the skipped duplicates (each skipped entry is logged with a warning
naming its `file`, `arguments` and `command`). -/
def entryDedupGo (done : List String) :
    List CompileCommand → List CompileCommand × List CompileCommand
  | [] => ([], [])
  | c :: rest =>
    if done.contains c.file then
      ((entryDedupGo done rest).1, c :: (entryDedupGo done rest).2)
    else
      (c :: (entryDedupGo (c.file :: done) rest).1, (entryDedupGo (c.file :: done) rest).2)

/-- Models the "Filter out commands for same file" block of `main`. -/
def entryDedup (cmds : List CompileCommand) : List CompileCommand × List CompileCommand :=
  entryDedupGo [] cmds

/-! ## Path filters (main.rs:200-215) -/

/-- The run's configuration flags (from the CLI collaborator). -/
structure Cli where
  exclude_system_headers : Bool
  headers : Bool

/-- Prefix test on whole characters lists. -/
def charsPrefix (pre s : List Char) : Bool := pre.isPrefixOf s

/-- Models `Path::starts_with`: component-wise prefix, comparing the lists of
`/`-separated components (faithful for the canonicalized paths the program
compares, which carry no `.`/`..` segments or repeated separators). -/
def pathStartsWith (p pre : String) : Bool :=
  (splitSep '/' pre.data).isPrefixOf (splitSep '/' p.data)

/-- Models `str::starts_with`. -/
def strStartsWith (s pre : String) : Bool := charsPrefix pre.data s.data

/-- Models `Path::extension().and_then(OsStr::to_str)`: within the last
`/`-component, the portion after the last dot, provided that dot is not the
leading character; `none` when there is no such dot. -/
def extension (p : String) : Option String :=
  match (splitSep '/' p.data).getLast? with
  | none => none
  | some name =>
    match position (fun c => c == '.') name.reverse with
    | some j =>
      if 0 < name.length - 1 - j then some (String.mk (name.drop (name.length - j)))
      else none
    | none => none

/-- The per-path filter body of the aggregation loop in `main`
(main.rs:201-214): a path is kept unless `exclude_system_headers` drops a
path under `/usr`, or `headers` drops a path whose extension does not start
with `h` (a path with no extension passes). -/
def keepPath (cli : Cli) (v : String) : Bool :=
  if cli.exclude_system_headers && pathStartsWith v "/usr" then false
  else if cli.headers then
    match extension v with
    | some ext => strStartsWith ext "h"
    | none => true
  else true

/-! ## Aggregation and output (main.rs:197-226) -/

/-- The paths inserted into `dependency_list`, in iteration order: per-entry
errors contribute nothing (they are logged with `error!`), per-entry path
lists contribute their paths that pass the filters. -/
def collectPaths (cli : Cli) : List (Except Error (List String)) → List String
  | [] => []
  | (Except.ok paths) :: rest => paths.filter (keepPath cli) ++ collectPaths cli rest
  | (Except.error _) :: rest => collectPaths cli rest

/-- Three-way comparison of characters by code point; UTF-8 byte order equals
code-point order, so this mirrors how Rust compares the bytes of path
components. -/
def charCmp (a b : Char) : Ordering :=
  if a.toNat < b.toNat then Ordering.lt
  else if b.toNat < a.toNat then Ordering.gt
  else Ordering.eq

/-- Lexicographic extension of a three-way comparison to lists. -/
def lexCmp (cmp : α → α → Ordering) : List α → List α → Ordering
  | [], [] => Ordering.eq
  | [], _ :: _ => Ordering.lt
  | _ :: _, [] => Ordering.gt
  | a :: as, b :: bs =>
    match cmp a b with
    | Ordering.eq => lexCmp cmp as bs
    | o => o

/-- Models `Ord for PathBuf`: lexicographic over the `/`-separated components,
each component compared bytewise (faithful for canonicalized paths). -/
def pathCmp (p q : String) : Ordering :=
  lexCmp (lexCmp charCmp) (splitSep '/' p.data) (splitSep '/' q.data)

/-- The sort order `Vec::sort` uses on the collected `PathBuf`s. -/
def pathLe (p q : String) : Bool :=
  match pathCmp p q with
  | Ordering.gt => false
  | _ => true

/-- Strict version of `pathLe`. -/
def pathLt (p q : String) : Bool :=
  match pathCmp p q with
  | Ordering.lt => true
  | _ => false

/-- Modelled from the spec: the "total lexicographic order over the canonical
path strings" of section 4.8, i.e. plain string order, character by
character; stated to compare against the component-wise order the program
actually sorts by. -/
def stringLexLe (a b : String) : Bool :=
  match lexCmp charCmp a.data b.data with
  | Ordering.gt => false
  | _ => true

/-- The printed lines of the run (main.rs:197-226): the deduplicated set of
collected paths (`HashSet` insertion), sorted by the `PathBuf` order. Since
distinct paths are totally ordered, the sorted result neither depends on the
set's iteration order nor on the sorting algorithm, so `Vec::sort` is
modelled by insertion sort over the same order. -/
def finalOutput (cli : Cli) (dependencies : List (Except Error (List String))) :
    List String :=
  List.insertionSort (fun a b => pathLe a b = true) ((collectPaths cli dependencies).dedup)

/-- Replaces a per-entry error by an empty contribution; used to state that
failing entries contribute nothing to the output. -/
def errToNil : Except Error (List String) → Except Error (List String)
  | Except.error _ => Except.ok []
  | Except.ok ps => Except.ok ps

/-- Models `main` from the parsed database on (main.rs:168-226): assert the
database non-empty, deduplicate entries by file, run `dump_dependency` on
every kept entry (a panic in any entry aborts the whole run: `none`), then
aggregate, sort and print. -/
def main_run (env : Env) (cli : Cli) (compile_commands : List CompileCommand) :
    Option (List String) :=
  if compile_commands.length = 0 then none
  else
    match ((entryDedup compile_commands).1).mapM (dump_dependency env) with
    | none => none
    | some dependencies => some (finalOutput cli dependencies)

/-! ## Concrete scenarios used by the claims -/

/-- Filesystem of the parser scenario: `src/a.c` and `inc/a.h` exist, nothing
else does; canonicalization roots the existing files at `/root`. -/
def fsC1 : Fs where
  pathExists := fun p => p == "src/a.c" || p == "inc/a.h"
  canonicalize := fun p =>
    if p == "src/a.c" then some "/root/src/a.c"
    else if p == "inc/a.h" then some "/root/inc/a.h" else none

/-- The captured stdout of the parser scenario. -/
def depOutC1 : String := "a.o: src/a.c \\\n  inc/a.h \\\n  inc/b.h\n"

/-- Filesystem of the end-to-end scenarios: only `x` exists, canonical `/x`. -/
def fsRun : Fs where
  pathExists := fun p => p == "x"
  canonicalize := fun p => if p == "x" then some "/x" else none

/-- World in which the executable `good` prints one dependency line and every
other executable exits zero with empty stdout. -/
def envEmptyOut : Env where
  shellSplit := fun _ => none
  run := fun args _ =>
    if args.head? == some "good" then some ⟨"x \\\ny\n", "", true⟩
    else some ⟨"", "", true⟩
  fs := fsRun

/-- World in which the executable `good` prints one dependency line and every
other executable exits with a non-zero status. -/
def envNonZero : Env where
  shellSplit := fun _ => none
  run := fun args _ =>
    if args.head? == some "good" then some ⟨"x \\\ny\n", "", true⟩
    else some ⟨"", "boom", false⟩
  fs := fsRun

/-- A database entry whose invocation succeeds. -/
def cmdGood : CompileCommand := ⟨".", none, some ["good"], "a.c"⟩

/-- A database entry (for a different file) whose invocation misbehaves. -/
def cmdBad : CompileCommand := ⟨".", none, some ["bad"], "b.c"⟩

/-! # Theorems

First the helper lemmas shared by several claims, then one theorem (plus
witness/counterexample where applicable) per claim. -/

/-! ## Lemmas about position, vecRemove and vecInsert -/

theorem position_cons (p : α → Bool) (a : α) (l : List α) :
    position p (a :: l) = if p a then some 0 else (position p l).map (fun n => n + 1) := rfl

theorem vecRemove_cons_succ (a : α) (t : List α) (n : Nat) :
    vecRemove (a :: t) (n + 1) = (vecRemove t n).map (fun r => a :: r) := rfl

theorem vecInsert_zero (l : List α) (x : α) : vecInsert l 0 x = some (x :: l) := by
  cases l <;> rfl

theorem vecInsert_cons_succ (h : α) (t : List α) (n : Nat) (x : α) :
    vecInsert (h :: t) (n + 1) x = (vecInsert t n x).map (fun r => h :: r) := rfl

theorem vecInsert_one (h : α) (t : List α) (x : α) :
    vecInsert (h :: t) 1 x = some (h :: x :: t) := by
  show vecInsert (h :: t) (0 + 1) x = some (h :: x :: t)
  rw [vecInsert_cons_succ, vecInsert_zero]
  rfl

theorem position_append_first (p : α → Bool) (pre : List α) (a : α) (l : List α)
    (hpre : ∀ x ∈ pre, p x = false) (ha : p a = true) :
    position p (pre ++ a :: l) = some pre.length := by
  induction pre with
  | nil => simp [position, ha]
  | cons x xs ih =>
    have hx : p x = false := hpre x (by simp)
    have ihx := ih (fun y hy => hpre y (by simp [hy]))
    simp [position, hx, ihx]

theorem position_eq_none (p : α → Bool) (l : List α) (h : ∀ x ∈ l, p x = false) :
    position p l = none := by
  induction l with
  | nil => rfl
  | cons x xs ih =>
    have hx : p x = false := h x (by simp)
    simp [position, hx, ih (fun y hy => h y (by simp [hy]))]

theorem vecRemove_append (pre : List α) (x : α) (l : List α) :
    vecRemove (pre ++ x :: l) pre.length = some (pre ++ l) := by
  induction pre with
  | nil => rfl
  | cons h t ih => simp [vecRemove_cons_succ, ih]

theorem vecRemove_append_succ (pre : List α) (y z : α) (post : List α) :
    vecRemove (pre ++ y :: z :: post) (pre.length + 1) = some (pre ++ y :: post) := by
  induction pre with
  | nil => rfl
  | cons a t ih => simp [vecRemove_cons_succ, ih]

theorem vecRemove_oob (l : List α) (i : Nat) (h : l.length ≤ i) : vecRemove l i = none := by
  induction l generalizing i with
  | nil => rfl
  | cons a t ih =>
    cases i with
    | zero => simp at h
    | succ n => simp [vecRemove_cons_succ, ih n (by simpa using h)]

/-- The first-`-o` predicate is false on every element of a list without `-o`. -/
theorem beqO_false_of_not_mem {l : List String} (hno : "-o" ∉ l) :
    ∀ x ∈ l, (x == "-o") = false := by
  intro x hx
  rw [beq_eq_false_iff_ne]
  intro heq
  subst heq
  exact hno hx

/-! ## The rewrite: C2, C8, C9 -/

/-- With no `-o` among the leading tokens, the rewrite removes the first `-o`
pair and inserts `-M` at index 1, keeping all other tokens in order. -/
theorem rewriteArgs_first_o (h out : String) (pre post : List String)
    (hno : "-o" ∉ h :: pre) :
    rewriteArgs (h :: (pre ++ "-o" :: out :: post)) = some (h :: "-M" :: (pre ++ post)) := by
  have hb : (h == "-o") = false := beqO_false_of_not_mem hno h (by simp)
  have hpre : ∀ x ∈ pre, (x == "-o") = false :=
    fun x hx => beqO_false_of_not_mem hno x (by simp [hx])
  have hpos : position (fun v => v == "-o") (h :: (pre ++ "-o" :: out :: post))
      = some (pre.length + 1) := by
    rw [position_cons, hb]
    rw [position_append_first _ pre "-o" (out :: post) hpre (by simp)]
    simp
  have hr1 : vecRemove (h :: (pre ++ "-o" :: out :: post)) (pre.length + 1 + 1)
      = some (h :: (pre ++ "-o" :: post)) := by
    rw [vecRemove_cons_succ, vecRemove_append_succ]
    rfl
  have hr2 : vecRemove (h :: (pre ++ "-o" :: post)) (pre.length + 1)
      = some (h :: (pre ++ post)) := by
    rw [vecRemove_cons_succ, vecRemove_append]
    rfl
  simp only [rewriteArgs]
  rw [if_neg (by simp)]
  simp only [hpos, hr1, hr2, vecInsert_one]

/-- With no `-o` at all, the rewrite only inserts `-M` at index 1. -/
theorem rewriteArgs_no_o (h : String) (t : List String) (hno : "-o" ∉ h :: t) :
    rewriteArgs (h :: t) = some (h :: "-M" :: t) := by
  have hpos : position (fun v => v == "-o") (h :: t) = none :=
    position_eq_none _ _ (beqO_false_of_not_mem hno)
  simp only [rewriteArgs]
  rw [if_neg (by simp)]
  simp only [hpos, vecInsert_one]

/-- C2: the invocation rewrite removes the first `-o` token together with its
immediately following token, inserts `-M` at index 1, and preserves the
relative order of every remaining token (later `-o` occurrences stay, as
`post` is arbitrary); with no `-o`, only the insertion happens; on the spec's
example it yields exactly the expected vector. -/
theorem claim_C2 :
    (∀ (h out : String) (pre post : List String), "-o" ∉ h :: pre →
      rewriteArgs (h :: (pre ++ "-o" :: out :: post)) = some (h :: "-M" :: (pre ++ post)))
    ∧ (∀ (h : String) (t : List String), "-o" ∉ h :: t →
      rewriteArgs (h :: t) = some (h :: "-M" :: t))
    ∧ rewriteArgs ["cc", "-c", "a.c", "-o", "a.o", "-Iinc"]
      = some ["cc", "-M", "-c", "a.c", "-Iinc"] :=
  ⟨rewriteArgs_first_o, rewriteArgs_no_o, by decide⟩

/-- C8 (amended): whenever the leading token is not `-o` itself, a successful
rewrite leaves position 0 (the executable name) unchanged. -/
theorem claim_C8 (h : String) (t r : List String)
    (hh : h ≠ "-o") (hr : rewriteArgs (h :: t) = some r) : r.head? = some h := by
  have hb : (h == "-o") = false := beq_eq_false_iff_ne.mpr hh
  simp only [rewriteArgs] at hr
  rw [if_neg (by simp)] at hr
  rw [position_cons] at hr
  simp only [hb, Bool.false_eq_true, if_false] at hr
  cases hpt : position (fun v => v == "-o") t with
  | none =>
    rw [hpt] at hr
    simp only [Option.map_none', vecInsert_one] at hr
    injection hr with h1
    rw [← h1]
    rfl
  | some j =>
    rw [hpt] at hr
    simp only [Option.map_some'] at hr
    rw [vecRemove_cons_succ] at hr
    cases h1 : vecRemove t (j + 1) with
    | none => rw [h1] at hr; simp at hr
    | some a =>
      rw [h1] at hr
      simp only [Option.map_some'] at hr
      rw [vecRemove_cons_succ] at hr
      cases h2 : vecRemove a j with
      | none => rw [h2] at hr; simp at hr
      | some b =>
        rw [h2] at hr
        simp only [Option.map_some', vecInsert_one] at hr
        injection hr with h3
        rw [← h3]
        rfl

/-- Witness for C8: a concrete rewrite that keeps the executable in front. -/
theorem claim_C8_witness :
    rewriteArgs ["cc", "-c"] = some ["cc", "-M", "-c"]
    ∧ List.head? (["cc", "-M", "-c"] : List String) = some "cc" :=
  ⟨by decide, claim_C8 "cc" ["-c"] ["cc", "-M", "-c"] (by decide) (by decide)⟩

/-- Counterexample to C8 as stated: a vector whose first token is `-o` is
rewritten successfully, but position 0 changes. -/
theorem claim_C8_counterexample :
    rewriteArgs ["-o", "x", "y"] = some ["y", "-M"]
    ∧ List.head? (["y", "-M"] : List String) ≠ List.head? (["-o", "x", "y"] : List String) := by
  decide

/-- C9 (amended): when the first `-o` occurrence is the final token,
`Vec::remove` at the following index panics, so the rewrite reaches no
result. -/
theorem claim_C9 (pre : List String) (hno : "-o" ∉ pre) :
    rewriteArgs (pre ++ ["-o"]) = none := by
  have hpos : position (fun v => v == "-o") (pre ++ ["-o"]) = some pre.length :=
    position_append_first _ pre "-o" [] (beqO_false_of_not_mem hno) (by simp)
  have hoob : vecRemove (pre ++ ["-o"]) (pre.length + 1) = none :=
    vecRemove_oob _ _ (by simp)
  simp only [rewriteArgs]
  rw [if_neg (by simp)]
  simp only [hpos, hoob]

/-- Witness for C9: a concrete vector ending in its only `-o`. -/
theorem claim_C9_witness : rewriteArgs ["cc", "-c", "-o"] = none :=
  claim_C9 ["cc", "-c"] (by decide)

/-- Counterexample to C9 as stated: a vector whose last token is `-o` but
whose first `-o` is followed by a token is rewritten without reaching the
panic. -/
theorem claim_C9_counterexample :
    List.getLast? (["cc", "-o", "x", "-o"] : List String) = some "-o"
    ∧ rewriteArgs ["cc", "-o", "x", "-o"] = some ["cc", "-M", "-o"] := by
  decide

/-! ## The dependency parser: C1 -/

/-- C1 (amended): a line without the space-backslash continuation marker
contributes nothing; on the scenario's stdout the parser returns exactly the
canonical form of `inc/a.h`. The target line does match the pattern, but its
captured candidate is the whole text `a.o: src/a.c`, which names no existing
file, so it contributes nothing and `src/a.c` itself is never extracted. -/
theorem claim_C1 :
    (∀ (fs : Fs) (line : String) (rest : List String), reCaptureStr line = none →
      parse_dependency fs (line :: rest) = parse_dependency fs rest)
    ∧ parse_dependency fsC1 (rustLines depOutC1) = Except.ok ["/root/inc/a.h"]
    ∧ reCaptureStr "a.o: src/a.c \\" = some "a.o: src/a.c"
    ∧ fsC1.pathExists "a.o: src/a.c" = false := by
  refine ⟨?_, rfl, rfl, rfl⟩
  intro fs line rest h
  simp [parse_dependency, h]

/-- Counterexample to C1 as stated: on the scenario's stdout the parser
returns only the canonical form of `inc/a.h`, not the canonical forms of
`src/a.c` and `inc/a.h`. -/
theorem claim_C1_counterexample :
    parse_dependency fsC1 (rustLines depOutC1) = Except.ok ["/root/inc/a.h"]
    ∧ (["/root/inc/a.h"] : List String) ≠ ["/root/src/a.c", "/root/inc/a.h"] :=
  ⟨rfl, by decide⟩

/-! ## Building the argument vector: C7 -/

/-- C7: obtaining the base argument vector fails with the missing-command
error exactly when neither `command` nor `arguments` is populated; whenever
the structured `arguments` field is present it is returned as is, whatever
the raw `command` string holds. -/
theorem claim_C7 :
    (∀ (split : String → Option (List String)) (c : CompileCommand),
      buildArgs split c = Except.error Error.CommandFormatError
        ↔ (c.arguments = none ∧ c.command = none))
    ∧ (∀ (split : String → Option (List String)) (c : CompileCommand) (a : List String),
      c.arguments = some a → buildArgs split c = Except.ok a) := by
  constructor
  · intro split c
    constructor
    · intro h
      cases harg : c.arguments with
      | some a => simp [buildArgs, harg] at h
      | none =>
        cases hcmd : c.command with
        | some s =>
          cases hsp : split s with
          | some a => simp [buildArgs, harg, hcmd, hsp] at h
          | none => simp [buildArgs, harg, hcmd, hsp] at h
        | none => exact ⟨rfl, rfl⟩
    · rintro ⟨h1, h2⟩
      simp [buildArgs, h1, h2]
  · intro split c a ha
    simp [buildArgs, ha]

/-! ## The filters: C5, C10 -/

/-- C5: with only `exclude_system_headers` set, a path is dropped exactly
when it is rooted under `/usr`; with only `headers` set, a path with an
extension is kept exactly when the extension starts with `h`; and the two
filters compose independently: the general filter is the conjunction of the
two single-flag filters. -/
theorem claim_C5 :
    (∀ v : String, keepPath ⟨true, false⟩ v = !(pathStartsWith v "/usr"))
    ∧ (∀ (v ext : String), extension v = some ext →
      keepPath ⟨false, true⟩ v = strStartsWith ext "h")
    ∧ (∀ (e h : Bool) (v : String),
      keepPath ⟨e, h⟩ v = (keepPath ⟨e, false⟩ v && keepPath ⟨false, h⟩ v)) := by
  refine ⟨?_, ?_, ?_⟩
  · intro v
    cases hs : pathStartsWith v "/usr" <;> simp [keepPath, hs]
  · intro v ext hext
    simp [keepPath, hext]
  · intro e h v
    cases e <;> cases h <;> cases hs : pathStartsWith v "/usr" <;>
      cases hext : extension v <;> simp [keepPath, hs, hext]

/-- C10: with `headers` set, a path without any extension passes the filter;
conversely a path the headers filter drops always has an extension, one that
does not start with `h`. -/
theorem claim_C10 :
    (∀ v : String, extension v = none → keepPath ⟨false, true⟩ v = true)
    ∧ (∀ v : String, keepPath ⟨false, true⟩ v = false →
      ∃ ext, extension v = some ext ∧ strStartsWith ext "h" = false) := by
  constructor
  · intro v hv
    simp [keepPath, hv]
  · intro v hv
    cases hext : extension v with
    | none => simp [keepPath, hext] at hv
    | some ext =>
      refine ⟨ext, rfl, ?_⟩
      simpa [keepPath, hext] using hv

/-! ## Entry deduplication: C6 -/

/-- Generalized invariant of the deduplication loop: relative to the set of
already seen files, the kept entries for a file are its first occurrence (or
none when already seen) and the skipped entries are all the rest. -/
theorem entryDedupGo_filter (f : String) (cmds : List CompileCommand) :
    ∀ done : List String,
      ((entryDedupGo done cmds).1.filter (fun c => c.file == f)
        = if f ∈ done then [] else (cmds.filter (fun c => c.file == f)).take 1)
      ∧ ((entryDedupGo done cmds).2.filter (fun c => c.file == f)
        = if f ∈ done then cmds.filter (fun c => c.file == f)
          else (cmds.filter (fun c => c.file == f)).drop 1) := by
  induction cmds with
  | nil =>
    intro done
    by_cases hd : f ∈ done <;> simp [entryDedupGo, hd]
  | cons c rest ih =>
    intro done
    have ihd := ih done
    have ihc := ih (c.file :: done)
    by_cases hcf : c.file = f
    · subst hcf
      by_cases hdm : c.file ∈ done
      · constructor
        · simp [entryDedupGo, hdm, ihd.1]
        · simp [entryDedupGo, hdm, ihd.2]
      · have hcont : c.file ∈ c.file :: done := List.mem_cons_self c.file done
        constructor
        · simp [entryDedupGo, hdm, ihc.1, hcont]
        · simp [entryDedupGo, hdm, ihc.2, hcont]
    · have hbe : (c.file == f) = false := beq_eq_false_iff_ne.mpr hcf
      have hfc : f ≠ c.file := Ne.symm hcf
      by_cases hdm : c.file ∈ done
      · constructor
        · simp [entryDedupGo, hdm, ihd.1, hbe]
        · simp [entryDedupGo, hdm, ihd.2, hbe]
      · constructor
        · simp [entryDedupGo, hdm, ihc.1, List.mem_cons, hfc, hbe]
        · simp [entryDedupGo, hdm, ihc.2, List.mem_cons, hfc, hbe]

/-- C6: for every database and file value, the deduplicated sequence keeps
exactly the first entry with that file, and the skipped (warned-about)
entries are exactly the remaining entries with that file, in order. -/
theorem claim_C6 (cmds : List CompileCommand) (f : String) :
    (entryDedup cmds).1.filter (fun c => c.file == f)
      = (cmds.filter (fun c => c.file == f)).take 1
    ∧ (entryDedup cmds).2.filter (fun c => c.file == f)
      = (cmds.filter (fun c => c.file == f)).drop 1 := by
  have h := entryDedupGo_filter f cmds []
  simpa [entryDedup] using h

/-! ## Order lemmas for the reporter: C4 -/

theorem charCmp_eq_iff (a b : Char) : charCmp a b = Ordering.eq ↔ a = b := by
  constructor
  · intro h
    have h1 : ¬ a.toNat < b.toNat := by
      intro hlt; rw [charCmp, if_pos hlt] at h; cases h
    have h2 : ¬ b.toNat < a.toNat := by
      intro hlt; rw [charCmp, if_neg h1, if_pos hlt] at h; cases h
    have hn : a.toNat = b.toNat := by omega
    have hv : a.val.toNat = b.val.toNat := hn
    exact Char.eq_of_val_eq (UInt32.eq_of_toBitVec_eq (BitVec.eq_of_toNat_eq hv))
  · intro h
    subst h
    rw [charCmp, if_neg (lt_irrefl _), if_neg (lt_irrefl _)]

theorem charCmp_swap (a b : Char) : (charCmp a b).swap = charCmp b a := by
  rcases Nat.lt_trichotomy a.toNat b.toNat with h | h | h
  · rw [charCmp, if_pos h, charCmp, if_neg (by omega), if_pos h]; rfl
  · rw [charCmp, if_neg (by omega), if_neg (by omega),
      charCmp, if_neg (by omega), if_neg (by omega)]; rfl
  · rw [charCmp, if_neg (by omega), if_pos h, charCmp, if_pos h]; rfl

theorem charCmp_lt_trans (a b c : Char) (h1 : charCmp a b = Ordering.lt)
    (h2 : charCmp b c = Ordering.lt) : charCmp a c = Ordering.lt := by
  have hab : a.toNat < b.toNat := by
    by_cases h : a.toNat < b.toNat
    · exact h
    · rw [charCmp, if_neg h] at h1
      by_cases h' : b.toNat < a.toNat <;> simp [h'] at h1
  have hbc : b.toNat < c.toNat := by
    by_cases h : b.toNat < c.toNat
    · exact h
    · rw [charCmp, if_neg h] at h2
      by_cases h' : c.toNat < b.toNat <;> simp [h'] at h2
  rw [charCmp, if_pos (by omega)]

theorem lexCmp_eq_iff (cmp : α → α → Ordering)
    (heq : ∀ a b, cmp a b = Ordering.eq ↔ a = b) :
    ∀ x y, lexCmp cmp x y = Ordering.eq ↔ x = y := by
  intro x
  induction x with
  | nil => intro y; cases y <;> simp [lexCmp]
  | cons a l ih =>
    intro y
    cases y with
    | nil => simp [lexCmp]
    | cons b m =>
      constructor
      · intro h
        cases hc : cmp a b with
        | lt => simp only [lexCmp, hc] at h; cases h
        | gt => simp only [lexCmp, hc] at h; cases h
        | eq =>
          simp only [lexCmp, hc] at h
          rw [(heq a b).mp hc, (ih m).mp h]
      · intro h
        injection h with h1 h2
        subst h1
        subst h2
        simp only [lexCmp, (heq a a).mpr rfl]
        exact (ih l).mpr rfl

theorem lexCmp_swap (cmp : α → α → Ordering)
    (hsw : ∀ a b, (cmp a b).swap = cmp b a) :
    ∀ x y, (lexCmp cmp x y).swap = lexCmp cmp y x := by
  intro x
  induction x with
  | nil => intro y; cases y <;> rfl
  | cons a l ih =>
    intro y
    cases y with
    | nil => rfl
    | cons b m =>
      cases hc : cmp a b with
      | eq =>
        have hcb : cmp b a = Ordering.eq := by rw [← hsw a b, hc]; rfl
        simp only [lexCmp, hc, hcb]
        exact ih m
      | lt =>
        have hcb : cmp b a = Ordering.gt := by rw [← hsw a b, hc]; rfl
        simp only [lexCmp, hc, hcb]
        rfl
      | gt =>
        have hcb : cmp b a = Ordering.lt := by rw [← hsw a b, hc]; rfl
        simp only [lexCmp, hc, hcb]
        rfl

theorem lexCmp_lt_trans (cmp : α → α → Ordering)
    (heq : ∀ a b, cmp a b = Ordering.eq ↔ a = b)
    (htr : ∀ a b c, cmp a b = Ordering.lt → cmp b c = Ordering.lt → cmp a c = Ordering.lt) :
    ∀ x y z, lexCmp cmp x y = Ordering.lt → lexCmp cmp y z = Ordering.lt →
      lexCmp cmp x z = Ordering.lt := by
  intro x
  induction x with
  | nil =>
    intro y z hxy hyz
    cases y with
    | nil => cases hxy
    | cons b m =>
      cases z with
      | nil => cases hyz
      | cons c k => rfl
  | cons a l ih =>
    intro y z hxy hyz
    cases y with
    | nil => cases hxy
    | cons b m =>
      cases z with
      | nil => cases hyz
      | cons c k =>
        cases hab : cmp a b with
        | gt => simp only [lexCmp, hab] at hxy; cases hxy
        | lt =>
          cases hbc : cmp b c with
          | gt => simp only [lexCmp, hbc] at hyz; cases hyz
          | lt => simp only [lexCmp, htr a b c hab hbc]
          | eq =>
            have hb : b = c := (heq b c).mp hbc
            subst hb
            simp only [lexCmp, hab]
        | eq =>
          have ha : a = b := (heq a b).mp hab
          subst ha
          cases hac : cmp a c with
          | gt => simp only [lexCmp, hac] at hyz; cases hyz
          | lt => simp only [lexCmp, hac]
          | eq =>
            have hc : a = c := (heq a c).mp hac
            subst hc
            simp only [lexCmp, hab] at hxy
            simp only [lexCmp, hac] at hyz
            simp only [lexCmp, hac]
            exact ih m k hxy hyz

theorem charsCmp_eq_iff : ∀ x y : List Char, lexCmp charCmp x y = Ordering.eq ↔ x = y :=
  lexCmp_eq_iff charCmp charCmp_eq_iff

theorem charsCmp_swap : ∀ x y : List Char, (lexCmp charCmp x y).swap = lexCmp charCmp y x :=
  lexCmp_swap charCmp charCmp_swap

theorem charsCmp_lt_trans : ∀ x y z : List Char, lexCmp charCmp x y = Ordering.lt →
    lexCmp charCmp y z = Ordering.lt → lexCmp charCmp x z = Ordering.lt :=
  lexCmp_lt_trans charCmp charCmp_eq_iff charCmp_lt_trans

theorem compsCmp_eq_iff :
    ∀ x y : List (List Char), lexCmp (lexCmp charCmp) x y = Ordering.eq ↔ x = y :=
  lexCmp_eq_iff _ charsCmp_eq_iff

theorem compsCmp_swap :
    ∀ x y : List (List Char), (lexCmp (lexCmp charCmp) x y).swap = lexCmp (lexCmp charCmp) y x :=
  lexCmp_swap _ charsCmp_swap

theorem compsCmp_lt_trans : ∀ x y z : List (List Char),
    lexCmp (lexCmp charCmp) x y = Ordering.lt → lexCmp (lexCmp charCmp) y z = Ordering.lt →
    lexCmp (lexCmp charCmp) x z = Ordering.lt :=
  lexCmp_lt_trans _ charsCmp_eq_iff charsCmp_lt_trans

theorem splitSep_ne_nil (sep : Char) (s : List Char) : splitSep sep s ≠ [] := by
  induction s with
  | nil => simp [splitSep]
  | cons c rest ih =>
    simp only [splitSep]
    by_cases h : c = sep
    · simp [h]
    · rw [if_neg h]
      cases hs : splitSep sep rest with
      | nil => simp
      | cons g gs => simp

theorem joinSep_splitSep (sep : Char) (s : List Char) : joinSep sep (splitSep sep s) = s := by
  induction s with
  | nil => rfl
  | cons c rest ih =>
    simp only [splitSep]
    by_cases h : c = sep
    · rw [if_pos h]
      cases hs : splitSep sep rest with
      | nil => exact absurd hs (splitSep_ne_nil sep rest)
      | cons g gs =>
        simp only [joinSep, List.nil_append]
        rw [← hs, ih, h]
    · rw [if_neg h]
      cases hs : splitSep sep rest with
      | nil => exact absurd hs (splitSep_ne_nil sep rest)
      | cons g gs =>
        rw [hs] at ih
        cases gs with
        | nil =>
          simp only [joinSep] at ih ⊢
          rw [ih]
        | cons g2 gs2 =>
          simp only [joinSep, List.cons_append] at ih ⊢
          rw [ih]

theorem splitSep_injective (sep : Char) {a b : List Char}
    (h : splitSep sep a = splitSep sep b) : a = b := by
  rw [← joinSep_splitSep sep a, ← joinSep_splitSep sep b, h]

theorem string_data_inj {p q : String} (h : p.data = q.data) : p = q :=
  String.ext h

theorem pathCmp_eq_iff (p q : String) : pathCmp p q = Ordering.eq ↔ p = q := by
  constructor
  · intro h
    have hc := (compsCmp_eq_iff _ _).mp h
    exact string_data_inj (splitSep_injective '/' hc)
  · intro h
    subst h
    exact (compsCmp_eq_iff _ _).mpr rfl

theorem pathCmp_swap (p q : String) : (pathCmp p q).swap = pathCmp q p :=
  compsCmp_swap _ _

theorem pathCmp_lt_trans (p q r : String) (h1 : pathCmp p q = Ordering.lt)
    (h2 : pathCmp q r = Ordering.lt) : pathCmp p r = Ordering.lt :=
  compsCmp_lt_trans _ _ _ h1 h2

theorem pathLe_trans (a b c : String) (h1 : pathLe a b = true) (h2 : pathLe b c = true) :
    pathLe a c = true := by
  cases hab : pathCmp a b with
  | gt => simp [pathLe, hab] at h1
  | eq =>
    have h : a = b := (pathCmp_eq_iff a b).mp hab
    subst h
    exact h2
  | lt =>
    cases hbc : pathCmp b c with
    | gt => simp [pathLe, hbc] at h2
    | eq =>
      have h : b = c := (pathCmp_eq_iff b c).mp hbc
      subst h
      exact h1
    | lt => simp only [pathLe, pathCmp_lt_trans a b c hab hbc]

theorem pathLe_total (a b : String) : pathLe a b = true ∨ pathLe b a = true := by
  cases hab : pathCmp a b with
  | lt => left; simp [pathLe, hab]
  | eq => left; simp [pathLe, hab]
  | gt =>
    right
    have h : pathCmp b a = Ordering.lt := by rw [← pathCmp_swap a b, hab]; rfl
    simp [pathLe, h]

theorem pathLt_of_le_ne (a b : String) (h : pathLe a b = true) (hne : a ≠ b) :
    pathLt a b = true := by
  cases hab : pathCmp a b with
  | lt => simp [pathLt, hab]
  | eq => exact absurd ((pathCmp_eq_iff a b).mp hab) hne
  | gt => simp [pathLe, hab] at h

/-- C4 (amended): for every configuration and per-entry results, the printed
lines are strictly increasing, with no duplicates, in the component-wise path
order the implementation sorts by (the `PathBuf` order). -/
theorem claim_C4 (cli : Cli) (results : List (Except Error (List String))) :
    List.Pairwise (fun a b => pathLt a b = true) (finalOutput cli results) := by
  haveI : IsTotal String (fun a b => pathLe a b = true) := ⟨pathLe_total⟩
  haveI : IsTrans String (fun a b => pathLe a b = true) := ⟨pathLe_trans⟩
  have hs : List.Sorted (fun a b => pathLe a b = true) (finalOutput cli results) :=
    List.sorted_insertionSort _ _
  have hperm : (finalOutput cli results).Perm (collectPaths cli results).dedup :=
    List.perm_insertionSort _ _
  have hnd : (finalOutput cli results).Nodup :=
    hperm.symm.nodup (List.nodup_dedup _)
  exact (List.Pairwise.and hs hnd).imp (fun h => pathLt_of_le_ne _ _ h.1 h.2)

/-- Counterexample to C4 as stated: a run whose output is `/a/b` then `/a-b`,
which is not increasing in plain string lexicographic order (`/a-b` is the
string-smaller of the two, since the byte of `-` precedes the byte of `/`). -/
theorem claim_C4_counterexample :
    finalOutput ⟨false, false⟩ [Except.ok ["/a-b", "/a/b"]] = ["/a/b", "/a-b"]
    ∧ stringLexLe "/a/b" "/a-b" = false :=
  ⟨rfl, rfl⟩

/-! ## Error propagation in the aggregation: C3 -/

/-- Replacing every per-entry error by an empty success leaves the collected
paths unchanged: an error contributes exactly nothing. -/
theorem collectPaths_errToNil (cli : Cli) (results : List (Except Error (List String))) :
    collectPaths cli (results.map errToNil) = collectPaths cli results := by
  induction results with
  | nil => rfl
  | cons r rest ih =>
    cases r with
    | ok ps => simp [collectPaths, errToNil, ih]
    | error e => simp [collectPaths, errToNil, ih]

/-- C3 (amended): when no kept entry panics (every `dump_dependency` call
returns a value — a returned per-entry error is fine), the run completes and
prints the aggregate of the per-entry results, and the failing entries
contribute exactly nothing: replacing every error by an empty success leaves
the output unchanged. Errors of kind missing-command, shell-parse failure,
spawn failure and non-zero exit are returned values, hence only logged; an
empty stdout after a successful exit is an assertion failure instead (see the
counterexample), which aborts the whole run. -/
theorem claim_C3 (env : Env) (cli : Cli) (cmds : List CompileCommand)
    (results : List (Except Error (List String)))
    (hne : cmds ≠ [])
    (hmap : ((entryDedup cmds).1).mapM (dump_dependency env) = some results) :
    main_run env cli cmds = some (finalOutput cli results)
    ∧ finalOutput cli results = finalOutput cli (results.map errToNil) := by
  constructor
  · simp only [main_run, hmap]
    rw [if_neg (fun h => hne (List.length_eq_zero.mp h))]
  · simp only [finalOutput, collectPaths_errToNil]

/-- Witness for C3: the spec's end-to-end scenario. A database with two
entries, one of which exits non-zero, still prints the dependency of the
successful entry; the failed entry contributes nothing. -/
theorem claim_C3_witness :
    main_run envNonZero ⟨false, false⟩ [cmdGood, cmdBad] = some ["/x"] := by
  have h := claim_C3 envNonZero ⟨false, false⟩ [cmdGood, cmdBad]
    [Except.ok ["/x"], Except.error Error.ExitStatusError] (by simp) (by rfl)
  exact h.1.trans (by rfl)

/-- Counterexample to C3 as stated: empty subprocess stdout is not caught and
logged but trips `assert_ne!`, aborting the whole run: the same successful
entry prints its dependency when alone, yet adding an entry whose subprocess
returns empty stdout on a zero exit makes the whole run abort with no
output at all. -/
theorem claim_C3_counterexample :
    main_run envEmptyOut ⟨false, false⟩ [cmdGood] = some ["/x"]
    ∧ main_run envEmptyOut ⟨false, false⟩ [cmdGood, cmdBad] = none :=
  ⟨rfl, rfl⟩
